import Mathlib

/-!
Verification of the NFT floor-price estimation pipeline.

The development shallowly embeds the two Python modules
(`cbnftfloorprice.py`, the pure computation kernel, and
`run_cbnftfloorprice.py`, the per-group orchestration in `main`) over exact
rationals: Python floats become `ℚ`, block numbers become `Int`, and a value
that may be the float `NaN` is modelled as `Option ℚ` with `none` standing
for `NaN`.  Every definition is translated from the source, keeping the
source's names.
-/

/-- One row of the trades dataframe, restricted to the columns the claims
touch: `block_number` (orders trades within a group) and `log_price`.  The
remaining columns (`chain_id`, `contract_address`, `ds`, `unix_timestamp`)
only identify the group or are carried along unchanged, so they are omitted
from the per-group model, where all rows share the same group key. -/
structure Trade where
  block_number : Int
  log_price : ℚ
deriving DecidableEq, Repr

/-- Insert a trade into a list so that an already `block_number`-sorted list
stays sorted; ties place the inserted element first. -/
def insertByBlock (t : Trade) : List Trade → List Trade
  | [] => [t]
  | u :: us =>
    if t.block_number ≤ u.block_number then t :: u :: us
    else u :: insertByBlock t us

/-- Sorting of the dataframe rows by `block_number`
(`data.sort_values("block_number")` in `create_lookback`), modelled as a
stable insertion sort.  The claims only apply it to inputs that are already
sorted (where every correct sort is the identity) or to singletons. -/
def sortTrades : List Trade → List Trade
  | [] => []
  | t :: ts => insertByBlock t (sortTrades ts)

/-- Insert a rational into a sorted list of rationals, keeping it sorted. -/
def insertQ (x : ℚ) : List ℚ → List ℚ
  | [] => [x]
  | y :: ys => if x ≤ y then x :: y :: ys else y :: insertQ x ys

/-- Ascending sort of a list of rationals (insertion sort); used to model the
sorting inside `np.median` and the quantile interpolation of
`pandas.Series.quantile`. -/
def sortQ : List ℚ → List ℚ
  | [] => []
  | x :: xs => insertQ x (sortQ xs)

/-- `np.median`: sort ascending; for odd length take the middle element, for
even length the average of the two middle elements.  On the empty list numpy
returns the float `NaN`; the junk value `0` returned here is never
observable in the claims, because a filter over an empty list is empty
whatever its bounds are (which also matches Python, where every comparison
with `NaN` is `False`). -/
def npMedian (array : List ℚ) : ℚ :=
  let s := sortQ array
  let n := s.length
  if n % 2 = 1 then s.getD (n / 2) 0
  else if n = 0 then 0
  else (s.getD (n / 2 - 1) 0 + s.getD (n / 2) 0) / 2

/-- `scipy.stats.median_abs_deviation` with its default arguments
(`center=np.median`, `scale=1.0`, i.e. unscaled): the median of the absolute
deviations from the median. -/
def scipyMAD (array : List ℚ) : ℚ :=
  npMedian (array.map (fun x => |x - npMedian array|))

/-- `cbnftfloorprice.remove_outliers`: keep exactly the elements within three
median absolute deviations of the median, bounds inclusive, preserving
order (`[float(elem) for elem in array if elem >= lb and elem <= ub]`). -/
def remove_outliers (array : List ℚ) : List ℚ :=
  let array_median := npMedian array
  let array_mad := scipyMAD array
  let lb := array_median - 3 * array_mad
  let ub := array_median + 3 * array_mad
  array.filter (fun elem => decide (lb ≤ elem ∧ elem ≤ ub))

/-- `cbnftfloorprice.compute_new_quantile`:
`min(pct_target_max, max(pct_target_min, q_curr + speed * (q_target - q_obs)))`. -/
def compute_new_quantile (q_curr q_target q_obs speed pct_target_min
    pct_target_max : ℚ) : ℚ :=
  min pct_target_max (max pct_target_min (q_curr + speed * (q_target - q_obs)))

/-- `cbnftfloorprice.compute_quantile`:
`float(pd.Series(np.array(array)).dropna().quantile(quantile))`.
Elements of the input are `Option ℚ`, with `none` standing for the float
`NaN`; `dropna` is `List.filterMap id`.  The result is again `Option ℚ`:
`pandas` returns the float `NaN` (modelled `none`) when the series is empty
after `dropna`; it never raises on empty input.  On a nonempty series the
default `interpolation="linear"` rule is applied: with sorted values
`s₀ ≤ … ≤ sₙ₋₁` and `h = quantile * (n - 1)`, the result is
`s_⌊h⌋ + (h - ⌊h⌋) * (s_⌊h⌋₊₁ - s_⌊h⌋)`.  All call sites in the repository
pass a quantile inside `[0, 1]`, the domain pandas accepts. -/
def compute_quantile (array : List (Option ℚ)) (quantile : ℚ) : Option ℚ :=
  let vals := array.filterMap id
  if vals.isEmpty then none
  else
    let s := sortQ vals
    let n := s.length
    let h : ℚ := quantile * ((n : ℚ) - 1)
    let i : ℕ := (Int.floor h).toNat
    let lo := s.getD i 0
    let hi := s.getD (i + 1) lo
    some (lo + (h - (i : ℚ)) * (hi - lo))

/-- The window built by the loop body of `cbnftfloorprice.create_lookback`
for the row at position `idx` of the sorted frame whose `log_price` column is
`prices`: the sentinel `[-42.0]` at `idx == 0`, otherwise the slice
`prices[max(0, idx - lookback) : idx]`. -/
def lookbackWindow (prices : List ℚ) (lookback : Int) (idx : ℕ) : List ℚ :=
  if idx = 0 then [(-42 : ℚ)]
  else
    (prices.drop (max 0 ((idx : Int) - lookback)).toNat).take
      ((idx : Int) - max 0 ((idx : Int) - lookback)).toNat

/-- `cbnftfloorprice.create_lookback`: sort the group's rows by
`block_number`, then attach to each row its lookback window of prior log
prices (`trade_id` is the row position and is implicit in the list order). -/
def create_lookback (data : List Trade) (lookback : Int) :
    List (Trade × List ℚ) :=
  let result := sortTrades data
  let prices := result.map Trade.log_price
  result.zip ((List.range result.length).map (lookbackWindow prices lookback))

/-- Window described by the claim for position `idx` of a group already
sorted ascending: the sentinel `[-42.0]` at `idx = 0`, otherwise the
`log_price` values of the trades at positions `[max(0, idx - lookback), idx)`
in their original order, excluding the current trade.  Stated directly over
the given (sorted) trades, for comparison with `create_lookback`. -/
def claimC1Window (trades : List Trade) (lookback : Int) (idx : ℕ) : List ℚ :=
  if idx = 0 then [(-42 : ℚ)]
  else
    ((trades.map Trade.log_price).drop (max 0 ((idx : Int) - lookback)).toNat).take
      ((idx : Int) - max 0 ((idx : Int) - lookback)).toNat

/-- Rank of position `i` in `blocks` under pandas
`rank(method="first", ascending=False)`: one plus the number of strictly
larger values, plus the number of equal values appearing earlier. -/
def rankFirstDesc (blocks : List Int) (i : ℕ) : ℕ :=
  (blocks.filter (fun b => decide (blocks.getD i 0 < b))).length
    + ((blocks.take i).filter (fun b => decide (b = blocks.getD i 0))).length
    + 1

/-- The pruning step of `run_cbnftfloorprice.main` (lines 26-31) restricted
to one group (the rows sharing one `(chain_id, contract_address)` key, in
their ascending block order): keep the rows whose descending first-method
rank satisfies `rank < backtest + lookback * 2`. -/
def retainRecent (group : List Trade) (backtest lookback : ℕ) : List Trade :=
  ((group.enum.filter
      (fun p => decide (rankFirstDesc (group.map Trade.block_number) p.1
        < backtest + lookback * 2))).map
    Prod.snd)

/-- `run_cbnftfloorprice.LOOKBACK`. -/
def LOOKBACK : ℕ := 140

/-- `run_cbnftfloorprice.BACKTEST`. -/
def BACKTEST : ℕ := 800

/-- `run_cbnftfloorprice.PCT_TARGET`. -/
def PCT_TARGET : ℚ := 5 / 100

/-- `run_cbnftfloorprice.PCT_TARGET_MIN`. -/
def PCT_TARGET_MIN : ℚ := 2 / 100

/-- `run_cbnftfloorprice.PCT_TARGET_MAX`. -/
def PCT_TARGET_MAX : ℚ := 1 / 10

/-- `run_cbnftfloorprice.SPEED`. -/
def SPEED : ℚ := 1 / 2

/-- The per-group pipeline of `run_cbnftfloorprice.main` after preprocessing,
for one group in ascending block order, returning the final trade's
`log_price_adj` (the floor price estimate is `exp` of this value, taken
outside the rational model).  Mirrors the source steps: prune to
`rank < BACKTEST + LOOKBACK * 2`; `create_lookback`; keep the last
`BACKTEST` rows; `remove_outliers` on each window; target quantile at
`PCT_TARGET` per row; `price_smaller` per row (a comparison with `NaN` is
`False` in Python, hence the `none` branch); group-level
`quantile_obs = sum(price_smaller) / count`; `compute_new_quantile`; final
`compute_quantile` of the last row's outlier-free window at the adjusted
quantile.  `none` arises only for an empty group (no row survives, so the
group produces no record) or from a `NaN` quantile. -/
def mainGroupPipeline (group : List Trade) : Option ℚ :=
  let pruned := retainRecent group BACKTEST LOOKBACK
  let rows := create_lookback pruned (LOOKBACK : Int)
  let recent := rows.drop (rows.length - BACKTEST)
  let rowsNoOut := recent.map (fun r => (r.1, remove_outliers r.2))
  let signals := rowsNoOut.map (fun r =>
    match compute_quantile (r.2.map some) PCT_TARGET with
    | some tq => decide (r.1.log_price ≤ tq)
    | none => false)
  let s : ℕ := (signals.filter (fun b => b)).length
  let n : ℕ := signals.length
  if n = 0 then none
  else
    let q_obs : ℚ := (s : ℚ) / (n : ℚ)
    let q_adj := compute_new_quantile PCT_TARGET PCT_TARGET q_obs SPEED
      PCT_TARGET_MIN PCT_TARGET_MAX
    match rowsNoOut.getLast? with
    | none => none
    | some r => compute_quantile (r.2.map some) q_adj

/-- C5 counterexample: with `pct_target_min = 1 > 0 = pct_target_max` the
output of `compute_new_quantile` is `0`, which does not lie in the (empty)
interval `[pct_target_min, pct_target_max]`, so the universally quantified
claim fails at this concrete input. -/
theorem compute_new_quantile_bounds_cex :
    ¬ ((1 : ℚ) ≤ compute_new_quantile 0 0 0 0 1 0
        ∧ compute_new_quantile 0 0 0 0 1 0 ≤ 0) := by
  intro h
  have hval : compute_new_quantile 0 0 0 0 1 0 = 0 := by
    unfold compute_new_quantile
    norm_num
  rw [hval] at h
  exact absurd h.1 (by norm_num)

/-- C5 (amended): `compute_new_quantile` returns
`min pct_target_max (max pct_target_min (q_curr + speed * (q_target - q_obs)))`,
and whenever `pct_target_min ≤ pct_target_max` the output lies in
`[pct_target_min, pct_target_max]`. -/
theorem compute_new_quantile_clamp_bounds (q_curr q_target q_obs speed mn mx : ℚ)
    (h : mn ≤ mx) :
    compute_new_quantile q_curr q_target q_obs speed mn mx
        = min mx (max mn (q_curr + speed * (q_target - q_obs)))
      ∧ mn ≤ compute_new_quantile q_curr q_target q_obs speed mn mx
      ∧ compute_new_quantile q_curr q_target q_obs speed mn mx ≤ mx := by
  refine ⟨rfl, ?_, ?_⟩
  · exact le_min h (le_max_left _ _)
  · exact min_le_left _ _

/-- C5 witness: the amended claim at concrete inputs. -/
theorem compute_new_quantile_clamp_bounds_witness :
    (0 : ℚ) ≤ 1
      ∧ (compute_new_quantile 2 3 4 5 0 1 = min 1 (max 0 (2 + 5 * (3 - 4)))
          ∧ (0 : ℚ) ≤ compute_new_quantile 2 3 4 5 0 1
          ∧ compute_new_quantile 2 3 4 5 0 1 ≤ 1) :=
  ⟨by norm_num, compute_new_quantile_clamp_bounds 2 3 4 5 0 1 (by norm_num)⟩

/-- C9: with positive `speed`, `compute_new_quantile` is monotonically
non-increasing in the observed quantile `q_obs`. -/
theorem compute_new_quantile_antitone (q_curr q_target speed mn mx q1 q2 : ℚ)
    (hspeed : 0 < speed) (h12 : q1 ≤ q2) :
    compute_new_quantile q_curr q_target q2 speed mn mx
      ≤ compute_new_quantile q_curr q_target q1 speed mn mx := by
  unfold compute_new_quantile
  have hcore : q_curr + speed * (q_target - q2)
      ≤ q_curr + speed * (q_target - q1) := by nlinarith
  exact min_le_min le_rfl (max_le_max le_rfl hcore)

/-- C9 witness: the monotonicity claim at concrete inputs. -/
theorem compute_new_quantile_antitone_witness :
    (0 : ℚ) < 1 ∧ (3 : ℚ) ≤ 7
      ∧ compute_new_quantile 0 0 7 1 0 1 ≤ compute_new_quantile 0 0 3 1 0 1 :=
  ⟨by norm_num, by norm_num, compute_new_quantile_antitone 0 0 1 0 1 3 7
    (by norm_num) (by norm_num)⟩

/-- C10: when `pct_target_min > pct_target_max`, the outer
`min pct_target_max (…)` is applied after the inner
`max pct_target_min (…)`, so `compute_new_quantile` always returns
`pct_target_max`. -/
theorem compute_new_quantile_min_gt_max (q_curr q_target q_obs speed mn mx : ℚ)
    (h : mx < mn) :
    compute_new_quantile q_curr q_target q_obs speed mn mx = mx := by
  unfold compute_new_quantile
  exact min_eq_left (le_trans h.le (le_max_left _ _))

/-- C10 witness: the inverted-bounds claim at concrete inputs. -/
theorem compute_new_quantile_min_gt_max_witness :
    (0 : ℚ) < 1 ∧ compute_new_quantile 9 9 9 9 1 0 = 0 :=
  ⟨by norm_num, compute_new_quantile_min_gt_max 9 9 9 9 1 0 (by norm_num)⟩

/-- C3: `remove_outliers` returns exactly the order-preserving subsequence of
input values within `[median - 3*MAD, median + 3*MAD]` inclusive (MAD the
unscaled median absolute deviation); when the MAD is `0` only values equal to
the median survive, and a single-element input is returned unchanged. -/
theorem remove_outliers_spec (l : List ℚ) (a : ℚ) :
    remove_outliers l
        = l.filter (fun x =>
            decide (npMedian l - 3 * scipyMAD l ≤ x ∧ x ≤ npMedian l + 3 * scipyMAD l))
      ∧ List.Sublist (remove_outliers l) l
      ∧ (scipyMAD l = 0 → remove_outliers l = l.filter (fun x => decide (x = npMedian l)))
      ∧ remove_outliers [a] = [a] := by
  refine ⟨rfl, List.filter_sublist _, ?_, ?_⟩
  · intro hmad
    simp only [remove_outliers, hmad]
    apply List.filter_congr
    intro x hx
    simp only [mul_zero, sub_zero, add_zero, decide_eq_decide]
    constructor
    · exact fun h => le_antisymm h.2 h.1
    · exact fun h => ⟨h.ge, h.le⟩
  · have hm : npMedian [a] = a := by simp [npMedian, sortQ, insertQ]
    have hd : scipyMAD [a] = 0 := by
      simp [scipyMAD, sub_self, abs_zero, npMedian, sortQ, insertQ]
    simp [remove_outliers, hm, hd]

/-- C3 witness: the degenerate-MAD branch and the singleton branch evaluated
at concrete inputs. -/
theorem remove_outliers_spec_witness :
    remove_outliers [(3 : ℚ), 3, 9] = [(3 : ℚ), 3]
      ∧ remove_outliers [(5 : ℚ)] = [(5 : ℚ)] := by
  constructor
  · have h := (remove_outliers_spec [(3 : ℚ), 3, 9] 5).2.2.1
      (by norm_num [scipyMAD, npMedian, sortQ, insertQ, abs])
    rw [h]
    norm_num [List.filter, npMedian, sortQ, insertQ]
  · exact (remove_outliers_spec [(3 : ℚ), 3, 9] 5).2.2.2

/-- C4 counterexample: `remove_outliers` is not idempotent.  On
`[0, 0, 1, 10]` the first pass has median `1/2` and MAD `1/2` and keeps
`[0, 0, 1]`; the second pass has median `0` and MAD `0` and keeps only
`[0, 0]`. -/
theorem remove_outliers_not_idempotent_cex :
    remove_outliers (remove_outliers [(0 : ℚ), 0, 1, 10])
      ≠ remove_outliers [(0 : ℚ), 0, 1, 10] := by
  have h1 : remove_outliers [(0 : ℚ), 0, 1, 10] = [0, 0, 1] := by
    norm_num [remove_outliers, scipyMAD, npMedian, sortQ, insertQ, abs, List.filter]
  have h2 : remove_outliers [(0 : ℚ), 0, 1] = [0, 0] := by
    norm_num [remove_outliers, scipyMAD, npMedian, sortQ, insertQ, abs, List.filter]
  rw [h1, h2]
  simp

/-- C4 (amended): applying `remove_outliers` to its own output yields an
order-preserving subsequence of that output (it can be strictly smaller, so
full idempotence fails). -/
theorem remove_outliers_twice_sublist (l : List ℚ) :
    List.Sublist (remove_outliers (remove_outliers l)) (remove_outliers l) :=
  List.filter_sublist _

/-- C4 witness: the sublist property of the amended claim at a concrete
input. -/
theorem remove_outliers_twice_sublist_witness :
    List.Sublist (remove_outliers (remove_outliers [(0 : ℚ), 0, 1, 10]))
      (remove_outliers [(0 : ℚ), 0, 1, 10]) :=
  remove_outliers_twice_sublist [(0 : ℚ), 0, 1, 10]

/-- Inserting a trade whose block number is a lower bound of the list puts it
in front. -/
theorem insertByBlock_of_le (t : Trade) (l : List Trade)
    (h : ∀ u ∈ l, t.block_number ≤ u.block_number) :
    insertByBlock t l = t :: l := by
  cases l with
  | nil => rfl
  | cons u us => simp [insertByBlock, h u (by simp)]

/-- Sorting by block number leaves an already ascending list unchanged. -/
theorem sortTrades_of_pairwise (l : List Trade)
    (h : l.Pairwise (fun a b => a.block_number ≤ b.block_number)) :
    sortTrades l = l := by
  induction l with
  | nil => rfl
  | cons t ts ih =>
    show insertByBlock t (sortTrades ts) = t :: ts
    rw [ih h.of_cons]
    exact insertByBlock_of_le t ts (fun u hu => List.rel_of_pairwise_cons h hu)

/-- Insertion grows the length by one. -/
theorem length_insertByBlock (t : Trade) (l : List Trade) :
    (insertByBlock t l).length = l.length + 1 := by
  induction l with
  | nil => rfl
  | cons u us ih =>
    by_cases hc : t.block_number ≤ u.block_number
    · simp [insertByBlock, hc]
    · simp [insertByBlock, hc, ih]

/-- Sorting preserves the length. -/
theorem length_sortTrades (l : List Trade) : (sortTrades l).length = l.length := by
  induction l with
  | nil => rfl
  | cons t ts ih =>
    show (insertByBlock t (sortTrades ts)).length = ts.length + 1
    rw [length_insertByBlock, ih]

/-- The window column of `create_lookback` is the list of `lookbackWindow`s
over the sorted frame. -/
theorem create_lookback_map_snd (data : List Trade) (lookback : Int) :
    (create_lookback data lookback).map Prod.snd
      = (List.range (sortTrades data).length).map
          (lookbackWindow ((sortTrades data).map Trade.log_price) lookback) := by
  unfold create_lookback
  exact List.map_snd_zip _ _ (by simp)

/-- C1: on a group already sorted ascending by block number, with
`lookback ≥ 0`, `create_lookback` attaches to position `0` the sentinel
`[-42.0]` and to every later position `idx` the log prices of the trades at
positions `[max(0, idx - lookback), idx)` in their original order, excluding
the current trade. -/
theorem create_lookback_windows_spec (trades : List Trade) (lookback : Int)
    (hsorted : trades.Pairwise (fun a b => a.block_number ≤ b.block_number))
    (hlb : 0 ≤ lookback) :
    (create_lookback trades lookback).map Prod.snd
      = (List.range trades.length).map (claimC1Window trades lookback) := by
  rw [create_lookback_map_snd, sortTrades_of_pairwise trades hsorted]
  rfl

/-- C1 witness: the window description at a concrete sorted group. -/
theorem create_lookback_windows_spec_witness :
    ([⟨1, 2⟩, ⟨3, 5⟩, ⟨7, 11⟩] : List Trade).Pairwise
        (fun a b => a.block_number ≤ b.block_number)
      ∧ (0 : Int) ≤ 1
      ∧ (create_lookback [⟨1, 2⟩, ⟨3, 5⟩, ⟨7, 11⟩] 1).map Prod.snd
          = (List.range 3).map (claimC1Window [⟨1, 2⟩, ⟨3, 5⟩, ⟨7, 11⟩] 1) :=
  ⟨by decide, by decide,
    create_lookback_windows_spec _ 1 (by decide) (by decide)⟩

/-- C6 counterexample: with `lookback = 0` and a one-trade group, the single
window produced is the sentinel `[-42.0]`, whose length `1` exceeds
`lookback`, so the claimed bound `length ≤ lookback` fails. -/
theorem create_lookback_len_cex :
    (create_lookback [Trade.mk 1 0] 0).map Prod.snd = [[(-42 : ℚ)]]
      ∧ ¬ ([[(-42 : ℚ)]].get ⟨0, by simp⟩).length ≤ (0 : Int).toNat := by
  exact ⟨rfl, by decide⟩

/-- C6 (amended): `create_lookback` yields exactly one window per trade; the
window of every position `idx > 0` has length at most `lookback`; and the
first trade's window is the sentinel `[-42.0]` (a singleton, so its length
can exceed `lookback` only when `lookback = 0`). -/
theorem create_lookback_shape (trades : List Trade) (lookback : Int)
    (hsorted : trades.Pairwise (fun a b => a.block_number ≤ b.block_number))
    (hlb : 0 ≤ lookback) :
    (create_lookback trades lookback).length = trades.length
      ∧ (∀ i (h : i < ((create_lookback trades lookback).map Prod.snd).length),
          0 < i →
          (((create_lookback trades lookback).map Prod.snd).get ⟨i, h⟩).length
            ≤ lookback.toNat)
      ∧ (trades ≠ [] →
          ((create_lookback trades lookback).map Prod.snd).head?
            = some [(-42 : ℚ)]) := by
  have hmap := create_lookback_map_snd trades lookback
  rw [sortTrades_of_pairwise trades hsorted] at hmap
  refine ⟨?_, ?_, ?_⟩
  · calc (create_lookback trades lookback).length
        = ((create_lookback trades lookback).map Prod.snd).length :=
          (List.length_map _ _).symm
      _ = trades.length := by rw [hmap]; simp
  · intro i h hi
    have hg := List.get_of_eq hmap ⟨i, h⟩
    rw [hg]
    simp only [List.get_eq_getElem, List.getElem_map, List.getElem_range]
    rw [lookbackWindow, if_neg (Nat.pos_iff_ne_zero.mp hi)]
    have h1 : (i : Int) - lookback ≤ max 0 ((i : Int) - lookback) :=
      le_max_right _ _
    have h2 : ((i : Int) - max 0 ((i : Int) - lookback)).toNat ≤ lookback.toNat := by
      omega
    exact le_trans (List.length_take_le _ _) h2
  · intro hne
    rw [hmap]
    obtain ⟨t, ts, rfl⟩ := List.exists_cons_of_ne_nil hne
    rw [show (t :: ts).length = ts.length + 1 from rfl, List.range_succ_eq_map]
    simp [lookbackWindow]

/-- C6 witness: the amended shape claim at a concrete sorted group with
`lookback = 1`. -/
theorem create_lookback_shape_witness :
    (create_lookback [Trade.mk 1 0, Trade.mk 2 1] 1).length
        = ([Trade.mk 1 0, Trade.mk 2 1] : List Trade).length
      ∧ (∀ i (h : i <
            ((create_lookback [Trade.mk 1 0, Trade.mk 2 1] 1).map Prod.snd).length),
          0 < i →
          (((create_lookback [Trade.mk 1 0, Trade.mk 2 1] 1).map
              Prod.snd).get ⟨i, h⟩).length ≤ (1 : Int).toNat)
      ∧ ([Trade.mk 1 0, Trade.mk 2 1] ≠ ([] : List Trade) →
          ((create_lookback [Trade.mk 1 0, Trade.mk 2 1] 1).map Prod.snd).head?
            = some [(-42 : ℚ)]) :=
  create_lookback_shape _ 1 (by decide) (by decide)

/-- Filtering an enumeration (starting at `s`) by an index threshold and
projecting the values is a `drop`. -/
theorem enumFrom_filter_ge_map_snd {α : Type} (xs : List α) : ∀ (s k : ℕ),
    ((List.enumFrom s xs).filter (fun p => decide (k ≤ p.1))).map Prod.snd
      = xs.drop (k - s) := by
  induction xs with
  | nil => intro s k; simp
  | cons x xs ih =>
    intro s k
    rw [show List.enumFrom s (x :: xs) = (s, x) :: List.enumFrom (s + 1) xs from rfl,
      List.filter_cons]
    by_cases hk : k ≤ s
    · have h0 : k - s = 0 := Nat.sub_eq_zero_of_le hk
      have h1 : k - (s + 1) = 0 := Nat.sub_eq_zero_of_le (le_trans hk (Nat.le_succ s))
      rw [if_pos (by simpa using hk), List.map_cons, ih (s + 1) k, h0, h1]
      simp
    · rw [if_neg (by simpa using hk), ih (s + 1) k]
      have h2 : k - s = (k - (s + 1)) + 1 := by omega
      rw [h2, List.drop_succ_cons]

/-- Indices produced by `enumFrom s xs` are below `s + xs.length`. -/
theorem fst_lt_of_mem_enumFrom {α : Type} (xs : List α) : ∀ (s : ℕ) (p : ℕ × α),
    p ∈ List.enumFrom s xs → p.1 < s + xs.length := by
  induction xs with
  | nil => intro s p hp; simp [List.enumFrom] at hp
  | cons x xs ih =>
    intro s p hp
    rw [show List.enumFrom s (x :: xs) = (s, x) :: List.enumFrom (s + 1) xs from rfl] at hp
    rcases List.mem_cons.mp hp with h | h
    · subst h; simp
    · have := ih (s + 1) p h
      simp only [List.length_cons]
      omega

/-- In a strictly ascending list, the number of elements greater than the one
at position `i` is the number of positions after `i`. -/
theorem filter_gt_of_strict (blocks : List Int) : ∀ (i : ℕ), i < blocks.length →
    blocks.Pairwise (fun a b => a < b) →
    (blocks.filter (fun b => decide (blocks.getD i 0 < b))).length
      = blocks.length - 1 - i := by
  induction blocks with
  | nil => intro i hi _; simp at hi
  | cons b bs ih =>
    intro i hi hp
    cases i with
    | zero =>
      have hall : ∀ x ∈ bs, b < x := fun x hx => List.rel_of_pairwise_cons hp hx
      simp only [List.getD_cons_zero, List.filter_cons]
      rw [if_neg (by simp), List.filter_eq_self.mpr
        (fun x hx => decide_eq_true (hall x hx))]
      simp
    | succ i =>
      have hi' : i < bs.length := by simpa using hi
      simp only [List.getD_cons_succ, List.filter_cons]
      have hmem : bs.getD i 0 ∈ bs := by
        rw [List.getD_eq_getElem?_getD, List.getElem?_eq_getElem hi']
        simpa using List.getElem_mem bs i hi'
      have hb : b < bs.getD i 0 := List.rel_of_pairwise_cons hp hmem
      rw [if_neg (by simp only [decide_eq_true_eq]; omega), ih i hi' hp.of_cons]
      simp only [List.length_cons]
      omega

/-- In a strictly ascending list, no element before position `i` equals the
element at position `i`. -/
theorem take_filter_eq_nil_of_strict (blocks : List Int) : ∀ (i : ℕ),
    i < blocks.length →
    blocks.Pairwise (fun a b => a < b) →
    (blocks.take i).filter (fun b => decide (b = blocks.getD i 0)) = [] := by
  induction blocks with
  | nil => intro i hi _; simp at hi
  | cons b bs ih =>
    intro i hi hp
    cases i with
    | zero => simp
    | succ i =>
      have hi' : i < bs.length := by simpa using hi
      simp only [List.getD_cons_succ, List.take_succ_cons, List.filter_cons]
      have hmem : bs.getD i 0 ∈ bs := by
        rw [List.getD_eq_getElem?_getD, List.getElem?_eq_getElem hi']
        simpa using List.getElem_mem bs i hi'
      have hb : b < bs.getD i 0 := List.rel_of_pairwise_cons hp hmem
      rw [if_neg (by simp only [decide_eq_true_eq]; omega)]
      exact ih i hi' hp.of_cons

/-- On a strictly ascending list the descending first-method rank of
position `i` is `length - i`. -/
theorem rankFirstDesc_of_strict (blocks : List Int) (i : ℕ)
    (hi : i < blocks.length) (hp : blocks.Pairwise (fun a b => a < b)) :
    rankFirstDesc blocks i = blocks.length - i := by
  unfold rankFirstDesc
  rw [filter_gt_of_strict blocks i hi hp,
    take_filter_eq_nil_of_strict blocks i hi hp]
  simp only [List.length_nil]
  omega

/-- C2 counterexample: with `backtest = 2` and `lookback = 0` on an ascending
two-trade group, the pruning keeps only the single most recent trade
(`rank < 2` keeps rank 1 only), not the claimed most recent
`backtest + 2*lookback = 2` trades. -/
theorem retainRecent_cex :
    retainRecent [Trade.mk 1 0, Trade.mk 2 0] 2 0 = [Trade.mk 2 0]
      ∧ retainRecent [Trade.mk 1 0, Trade.mk 2 0] 2 0
          ≠ [Trade.mk 1 0, Trade.mk 2 0] := by
  exact ⟨by decide, by decide⟩

/-- C2 (amended): on a group whose block numbers are strictly increasing, the
pruning step retains exactly the most recent `backtest + 2*lookback - 1`
trades (all of them when the group is smaller), i.e. it drops the first
`length + 1 - (backtest + 2*lookback)` trades. -/
theorem retainRecent_eq_drop (group : List Trade) (backtest lookback : ℕ)
    (hstrict : (group.map Trade.block_number).Pairwise (fun a b => a < b)) :
    retainRecent group backtest lookback
      = group.drop (group.length + 1 - (backtest + lookback * 2)) := by
  unfold retainRecent
  have hlen : (group.map Trade.block_number).length = group.length := by simp
  have hcong : (group.enum.filter
        (fun p => decide (rankFirstDesc (group.map Trade.block_number) p.1
          < backtest + lookback * 2)))
      = (group.enum.filter
        (fun p => decide (group.length + 1 - (backtest + lookback * 2) ≤ p.1))) := by
    apply List.filter_congr
    intro p hp
    have hplt : p.1 < group.length := by
      have := fst_lt_of_mem_enumFrom group 0 p hp
      omega
    rw [rankFirstDesc_of_strict (group.map Trade.block_number) p.1
      (by rw [hlen]; exact hplt) hstrict, hlen]
    exact decide_eq_decide.mpr (by omega)
  rw [hcong]
  have h := enumFrom_filter_ge_map_snd group 0
    (group.length + 1 - (backtest + lookback * 2))
  simpa using h

/-- C2 witness: the amended pruning claim on a concrete strictly ascending
group of three trades with `backtest = 2`, `lookback = 0`. -/
theorem retainRecent_eq_drop_witness :
    retainRecent [Trade.mk 1 0, Trade.mk 2 0, Trade.mk 3 0] 2 0
      = [Trade.mk 1 0, Trade.mk 2 0, Trade.mk 3 0].drop
          (([Trade.mk 1 0, Trade.mk 2 0, Trade.mk 3 0] : List Trade).length + 1
            - (2 + 0 * 2)) :=
  retainRecent_eq_drop _ 2 0 (by decide)

/-- A quantile of a one-element series is that element, for every quantile
argument (pandas interpolates within a single point). -/
theorem compute_quantile_singleton (v q : ℚ) :
    compute_quantile [some v] q = some v := by
  simp [compute_quantile, sortQ, insertQ]

/-- The sentinel window passes the outlier filter unchanged: its median is
`-42` and its MAD is `0`. -/
theorem remove_outliers_sentinel :
    remove_outliers [(-42 : ℚ)] = [(-42 : ℚ)] := by
  norm_num [remove_outliers, scipyMAD, npMedian, sortQ, insertQ, abs, List.filter]

/-- A single-trade group survives the pruning step (its rank is
`1 < BACKTEST + LOOKBACK * 2`). -/
theorem retainRecent_singleton (t : Trade) :
    retainRecent [t] BACKTEST LOOKBACK = [t] := by
  simp [retainRecent, rankFirstDesc, List.enum, List.enumFrom, List.filter,
    lt_self_iff_false, BACKTEST, LOOKBACK]

set_option maxRecDepth 4000 in
/-- For a single-trade group the whole pipeline reduces to quantiles of the
sentinel window, so the final log-space estimate is `-42` whatever the
trade's price is; no failure is signalled. -/
theorem groupPipeline_single (t : Trade) :
    mainGroupPipeline [t] = some (-42) := by
  have h1 : retainRecent [t] BACKTEST LOOKBACK = [t] := retainRecent_singleton t
  have h2 : create_lookback [t] (LOOKBACK : Int) = [(t, [(-42 : ℚ)])] := rfl
  have h3 : (1 : ℕ) - BACKTEST = 0 := by norm_num [BACKTEST]
  simp [mainGroupPipeline, h1, h2, h3, remove_outliers_sentinel,
    compute_quantile_singleton, List.getLast?]

/-- C7 counterexample: a group with exactly one trade is not skipped and no
failure is reported; the pipeline produces the sentinel-derived log-space
estimate `-42` (floor price `exp(-42)`), contradicting the claimed
"insufficient data" outcome. -/
theorem single_trade_group_cex :
    mainGroupPipeline [Trade.mk 1 0] = some (-42)
      ∧ mainGroupPipeline [Trade.mk 1 0] ≠ none :=
  ⟨groupPipeline_single (Trade.mk 1 0), by
    rw [groupPipeline_single (Trade.mk 1 0)]
    simp⟩

/-- C7 (amended): for every group with exactly one trade, the pipeline
silently returns the sentinel-derived log-space estimate `-42` (the floor
price estimate is `exp(-42)`); the group is not skipped and no
"insufficient data" outcome is surfaced. -/
theorem mainGroupPipeline_singleton (t : Trade) :
    mainGroupPipeline [t] = some (-42) :=
  groupPipeline_single t

/-- C7 witness: the amended claim evaluated at a concrete one-trade group. -/
theorem mainGroupPipeline_singleton_witness :
    mainGroupPipeline [Trade.mk 3 7] = some (-42) :=
  mainGroupPipeline_singleton (Trade.mk 3 7)

/-- C8 counterexample: on an input that is empty after dropping missing
values, `compute_quantile` silently evaluates to the float `NaN` (modelled
`none`); it is a total function that returns this value rather than failing
with an "empty input" error, contradicting the claim. -/
theorem compute_quantile_empty_cex :
    compute_quantile [none] (1 / 2) = none := rfl

/-- C8 (amended): whenever the input is empty after dropping missing values,
`compute_quantile` returns `NaN` (modelled `none`) for every quantile
argument, silently; no error condition is raised. -/
theorem compute_quantile_empty_nan (array : List (Option ℚ)) (q : ℚ)
    (h : array.filterMap id = []) : compute_quantile array q = none := by
  simp [compute_quantile, h]

/-- C8 witness: the amended claim on a concrete all-missing input. -/
theorem compute_quantile_empty_nan_witness :
    ([none, none] : List (Option ℚ)).filterMap id = []
      ∧ compute_quantile [none, none] 0 = none :=
  ⟨rfl, compute_quantile_empty_nan [none, none] 0 rfl⟩
